import Mathlib

/-!
Verification of the cargo-feature-hint completion provider (src/extension.ts).

The TypeScript source is shallowly embedded over `List Char` / `String`:
each regular expression that the source applies to a single line is encoded
as an executable matcher whose backtracking behaviour has been traced by
hand to be deterministic for the concrete patterns involved (greedy runs in
these patterns are always followed by a character that cannot occur inside
the run, hence backtracking never changes the outcome).  JavaScript
collaborators that are out of scope (the editor, the filesystem, the
network, `path.resolve`) appear as explicit function parameters.
-/

/-! ## Character classes used by the source's regular expressions -/

/-- JS `\s` / `String.prototype.trim` whitespace, restricted to ASCII
whitespace, which is all that occurs in manifest lines. -/
def isWsChar (c : Char) : Bool := c.isWhitespace

/-- The double quote character. -/
def dquoteChar : Char := Char.ofNat 34

/-- The single quote character. -/
def squoteChar : Char := Char.ofNat 39

/-- The opening brace character (from the inline-table regex `\{`). -/
def obraceChar : Char := Char.ofNat 123

/-- The character class `["']` of the source's regexes. -/
def isQuoteChar (c : Char) : Bool := c == dquoteChar || c == squoteChar

/-- The character class `[\w-]` (JS `\w` is `[A-Za-z0-9_]`, plus `-`). -/
def isWordDashChar (c : Char) : Bool := c.isAlphanum || c == '_' || c == '-'

/-- The character class `[a-z-]` from the section-header regex. -/
def isLowerDashChar (c : Char) : Bool := (('a' ≤ c) && (c ≤ 'z')) || c == '-'

/-! ## Small matcher combinators -/

/-- Consume the literal `pat` at the head of `l` (a regex literal). -/
def expectStr (pat : List Char) (l : List Char) : Option (List Char) :=
  if pat.isPrefixOf l then some (l.drop pat.length) else none

/-- Consume one expected character. -/
def expectChar (c : Char) : List Char → Option (List Char)
  | [] => none
  | x :: xs => if x == c then some xs else none

/-- `\s*` — greedy, and exact here because every use site follows it with a
non-whitespace character. -/
def skipWs (l : List Char) : List Char := l.dropWhile isWsChar

/-- JS `String.prototype.trim`. -/
def trimChars (l : List Char) : List Char :=
  ((l.dropWhile isWsChar).reverse.dropWhile isWsChar).reverse

/-- Leftmost-occurrence search: JS `string.match(re)` without `^` anchors
tries the pattern at every start position, earliest first. -/
def firstMatch (m : List Char → Option α) : List Char → Option α
  | [] => m []
  | c :: rest =>
    match m (c :: rest) with
    | some a => some a
    | none => firstMatch m rest

/-- `["']([^"']+)["']` at the position just after the opening quote was
consumed: a nonempty run free of quote characters, then a closing quote
(either kind, as in the source's character class). Returns the run and the
rest of the input after the closing quote. -/
def quotedValueTail (l : List Char) : Option (String × List Char) :=
  match l.dropWhile (fun d => !(isQuoteChar d)) with
  | [] => none
  | _ :: rest =>
    if (l.takeWhile (fun d => !(isQuoteChar d))).isEmpty then none
    else some (String.mk (l.takeWhile (fun d => !(isQuoteChar d))), rest)

theorem dropWhile_length_le (p : Char → Bool) (l : List Char) :
    (l.dropWhile p).length ≤ l.length := by
  induction l with
  | nil => simp [List.dropWhile]
  | cons c rest ih =>
    simp only [List.dropWhile]
    split
    · exact Nat.le_succ_of_le ih
    · simp

theorem quotedValueTail_length {l : List Char} {v : String} {r : List Char}
    (h : quotedValueTail l = some (v, r)) : r.length < l.length := by
  unfold quotedValueTail at h
  split at h
  · exact absurd h (by simp)
  · next x xs heq =>
    split at h
    · exact absurd h (by simp)
    · injection h with h1
      have h2 : (l.dropWhile (fun d => !(isQuoteChar d))).length ≤ l.length :=
        dropWhile_length_le _ l
      rw [heq] at h2
      have h3 : r = xs := congrArg Prod.snd h1.symm
      subst h3
      simp at h2
      omega

/-- `["']([^"']+)["']` at the current position. -/
def quotedValue (l : List Char) : Option (String × List Char) :=
  match l with
  | [] => none
  | c :: rest => if isQuoteChar c then quotedValueTail rest else none

/-- `<key>\s*=\s*["']([^"']+)["']` anchored at the current position,
returning the quoted value (the regexes for `path` and `version`). -/
def keyValAt (key : List Char) (l : List Char) : Option String :=
  match expectStr key l with
  | none => none
  | some r1 =>
    match expectChar '=' (skipWs r1) with
    | none => none
    | some r2 => (quotedValue (skipWs r2)).map (·.1)

/-! ## Trigger Gate — `linePrefix.match(/features\s*=\s*\[[^\]]*["']([^"']*)$/)`
(provideCompletionItems, extension.ts lines 21–26) -/

/-- The tail of the trigger regex after `\[` was consumed:
`[^\]]*["'][^"']*$` — some position holds a quote, no `]` occurs before it,
and no quote character occurs after it. -/
def triggerTail : List Char → Bool
  | [] => false
  | c :: rest =>
    (isQuoteChar c && !(rest.any isQuoteChar)) || (!(c == ']') && triggerTail rest)

/-- The whole trigger regex anchored at the current position. -/
def matchTriggerAt (l : List Char) : Bool :=
  match expectStr "features".data l with
  | none => false
  | some r1 =>
    match expectChar '=' (skipWs r1) with
    | none => false
    | some r2 =>
      match expectChar '[' (skipWs r2) with
      | none => false
      | some r3 => triggerTail r3

/-- The Trigger Gate: the unanchored regex test the provider performs on the
line prefix up to the cursor. -/
def triggerActive : List Char → Bool
  | [] => false
  | c :: rest => matchTriggerAt (c :: rest) || triggerActive rest

/-! ## Existing-Features Extractor — getExistingFeatures (lines 62–69) -/

/-- `features\s*=\s*\[([^\]]*)\]` anchored at the current position: the
bracket content runs to the first `]`, which must exist. -/
def bracketContentAt (l : List Char) : Option (List Char) :=
  match expectStr "features".data l with
  | none => none
  | some r1 =>
    match expectChar '=' (skipWs r1) with
    | none => none
    | some r2 =>
      match expectChar '[' (skipWs r2) with
      | none => none
      | some r3 =>
        match r3.dropWhile (fun c => !(c == ']')) with
        | [] => none
        | _ :: _ => some (r3.takeWhile (fun c => !(c == ']')))

/-- First match of `features\s*=\s*\[([^\]]*)\]` anywhere in the line. -/
def featuresBracketContent (l : List Char) : Option (List Char) :=
  firstMatch bracketContentAt l

/-- The global scan `content.match(/["']([^"']+)["']/g)` as a one-pass
scanner: the second argument is `none` outside a candidate match and
`some acc` when an opening quote has been consumed and `acc` is the interior
read so far.  A quote with empty interior restarts the candidate there (the
regex engine's retry at the next start position), a quote with nonempty
interior closes a match, and exhausting the input discards the pending
candidate (no closing quote, so the engine finds no further match).
`s.replace(/["']/g, "")` on a matched string is its interior run, which the
scan returns directly. -/
def quotedRunsGo : List Char → Option (List Char) → List String
  | [], _ => []
  | c :: rest, none =>
    if isQuoteChar c then quotedRunsGo rest (some []) else quotedRunsGo rest none
  | c :: rest, some acc =>
    if isQuoteChar c then
      if acc.isEmpty then quotedRunsGo rest (some [])
      else String.mk acc :: quotedRunsGo rest none
    else quotedRunsGo rest (some (acc ++ [c]))

/-- All matches of `["']([^"']+)["']` over the bracket content, in order. -/
def quotedRuns (l : List Char) : List String := quotedRunsGo l none

/-- getExistingFeatures: the JS `Set` is modelled as the list of extracted
entries in scan order; only membership is ever consumed. -/
def getExistingFeatures (lineText : String) : List String :=
  match featuresBracketContent lineText.data with
  | none => []
  | some content => quotedRuns content

/-! ## Feature data -/

/-- `type FeatureInfo = { name: string, enable: string[] }`. -/
structure FeatureInfo where
  name : String
  enable : List String
deriving DecidableEq, Repr

/-- JS `name.startsWith(p)`. -/
def strStartsWith (s p : String) : Bool := p.data.isPrefixOf s.data

/-- The suggestion pipeline of provideCompletionItems (lines 21–54) with the
feature resolution abstracted as an input: gate on the line prefix up to the
cursor, then drop features already listed on the line, and surface the
remaining names. `none` models `return undefined` (no suggestions). -/
def provideCompletionNames (lineText : String) (cursor : Nat)
    (features : List FeatureInfo) : Option (List String) :=
  let pfx := lineText.data.take cursor
  if triggerActive pfx then
    let existing := getExistingFeatures lineText
    some ((features.filter (fun f => !(existing.contains f.name))).map (·.name))
  else
    none

/-! ## Dependency-Context Resolver — getCrateInfo (lines 71–118)

The document is a list of lines; `resolve` abstracts
`p => path.resolve(documentDir, p)`, the filesystem collaborator. -/

/-- The result record of getCrateInfo. -/
structure CrateInfo where
  crateName : String
  path : Option String
  version : Option String
deriving DecidableEq, Repr

/-- `^\s*([\w-]+)\s*=\s*\{` — the inline table form; yields the crate name. -/
def inlineCrateName (l : List Char) : Option String :=
  let r0 := skipWs l
  let name := r0.takeWhile isWordDashChar
  if name.isEmpty then none
  else
    match expectChar '=' (skipWs (r0.dropWhile isWordDashChar)) with
    | none => none
    | some r2 =>
      match expectChar obraceChar (skipWs r2) with
      | none => none
      | some _ => some (String.mk name)

/-- `^\[(?:[a-z-]+\.)([\w-]+)\]` on the trimmed line — the section-header
form; yields the crate name (text after `]` is unconstrained). -/
def tableHeaderName (t : List Char) : Option String :=
  match t with
  | '[' :: r1 =>
    let seg := r1.takeWhile isLowerDashChar
    if seg.isEmpty then none
    else
      match r1.dropWhile isLowerDashChar with
      | '.' :: r2 =>
        let name := r2.takeWhile isWordDashChar
        if name.isEmpty then none
        else
          match r2.dropWhile isWordDashChar with
          | ']' :: _ => some (String.mk name)
          | _ => none
      | _ => none
  | _ => none

/-- JS `line.startsWith("[")` on the trimmed line. -/
def headIsBracket (line : String) : Bool := (trimChars line.data).head? == some '['

/-- JS `line.includes("dependencies")` on the trimmed line. -/
def containsDependencies : List Char → Bool
  | [] => false
  | c :: rest => "dependencies".data.isPrefixOf (c :: rest) || containsDependencies rest

/-- The forward scan of the section-header branch (lines 101–111): walk the
given window of lines, stop at the first line whose trimmed text starts with
`[`, and *overwrite* the accumulated `path` and `version` on every anchored
`^path\s*=\s*["']([^"']+)["']` / `^version\s*=\s*["']([^"']+)["']` match, so
the last matching line of the window wins. -/
def scanWindow (resolve : String → String) :
    List String → Option String → Option String → Option String × Option String
  | [], p, v => (p, v)
  | line :: rest, p, v =>
    if headIsBracket line then (p, v)
    else
      scanWindow resolve rest
        (match keyValAt "path".data (trimChars line.data) with
         | some val => some (resolve val)
         | none => p)
        (match keyValAt "version".data (trimChars line.data) with
         | some val => some val
         | none => v)

/-- What examining one line of the upward scan decides: a section-header
match resolves the crate, another `[`-line without "dependencies" aborts,
anything else continues upward. -/
inductive UpwardStep where
  | found (c : CrateInfo)
  | stop
  | continueUp
deriving DecidableEq, Repr

/-- One iteration of the upward loop of lines 93–115 at line `i`: on a
section-header match the crate name is taken and the forward scan runs over
the following 14 lines (`for (let j = i + 1; j < i + 15; ...)`). -/
def upwardStep (resolve : String → String) (lines : List String) (i : Nat) :
    UpwardStep :=
  let t := trimChars ((lines.getD i "").data)
  match tableHeaderName t with
  | some name =>
    let pv := scanWindow resolve ((lines.drop (i + 1)).take 14) none none
    .found { crateName := name, path := pv.1, version := pv.2 }
  | none =>
    if t.head? == some '[' && !(containsDependencies t) then .stop
    else .continueUp

/-- The upward scan, examining line `i` and moving up to line 0. -/
def upwardScan (resolve : String → String) (lines : List String) :
    Nat → Option CrateInfo
  | 0 =>
    match upwardStep resolve lines 0 with
    | .found c => some c
    | _ => none
  | i + 1 =>
    match upwardStep resolve lines (i + 1) with
    | .found c => some c
    | .stop => none
    | .continueUp => upwardScan resolve lines i

/-- getCrateInfo: inline form on the current line takes precedence; the
unanchored `path`/`version` extraction there searches the whole line; else
scan upward starting one line above the cursor. -/
def getCrateInfo (resolve : String → String) (lines : List String) (posLine : Nat) :
    Option CrateInfo :=
  let currentLine := lines.getD posLine ""
  match inlineCrateName currentLine.data with
  | some name =>
    some { crateName := name,
           path := (firstMatch (keyValAt "path".data) currentLine.data).map resolve,
           version := firstMatch (keyValAt "version".data) currentLine.data }
  | none =>
    match posLine with
    | 0 => none
    | j + 1 => upwardScan resolve lines j

/-! ## Local Feature Source — fetchLocalCrateFeatures (lines 120–162)

The filesystem is abstracted: the function receives the text of the local
`Cargo.toml` (an absent or unreadable file yields the empty list in the
source and is modelled by simply not calling this function). -/

/-- `content.split(/\r?\n/)`. -/
def splitManifestLines : List Char → List (List Char)
  | [] => [[]]
  | '\r' :: '\n' :: rest => [] :: splitManifestLines rest
  | '\n' :: rest => [] :: splitManifestLines rest
  | c :: rest =>
    match splitManifestLines rest with
    | [] => [[c]]
    | l :: ls => (c :: l) :: ls

/-- `s.split(",")`. -/
def splitOnComma (l : List Char) : List (List Char) :=
  go l []
where
  go : List Char → List Char → List (List Char)
    | [], acc => [acc.reverse]
    | c :: rest, acc =>
      if c == ',' then acc.reverse :: go rest [] else go rest (c :: acc)

/-- One entry of an enable list: `s.trim().replace(/["']/g, "")`, kept only
when nonempty. -/
def cleanEnableEntry (l : List Char) : List Char :=
  (trimChars l).filter (fun c => !(isQuoteChar c))

/-- `^([\w-]+)\s*=\s*\[(.*?)\]` on the trimmed line: feature name and the
lazily captured content up to the first `]` (which must exist). -/
def featureDeclMatch (t : List Char) : Option (String × List Char) :=
  let name := t.takeWhile isWordDashChar
  if name.isEmpty then none
  else
    match expectChar '=' (skipWs (t.dropWhile isWordDashChar)) with
    | none => none
    | some r2 =>
      match expectChar '[' (skipWs r2) with
      | none => none
      | some r3 =>
        match r3.dropWhile (fun c => !(c == ']')) with
        | [] => none
        | _ :: _ => some (String.mk name, r3.takeWhile (fun c => !(c == ']')))

/-- `^([\w-]+)\s*=` on the trimmed line (the bare-declaration fallback). -/
def simpleDeclMatch (t : List Char) : Option String :=
  let name := t.takeWhile isWordDashChar
  if name.isEmpty then none
  else
    match expectChar '=' (skipWs (t.dropWhile isWordDashChar)) with
    | none => none
    | some _ => some (String.mk name)

/-- The `[features]`-section line loop of fetchLocalCrateFeatures; the Bool
is the `inFeaturesSection` flag. -/
def localFeaturesLoop : List (List Char) → Bool → List FeatureInfo
  | [], _ => []
  | line :: rest, inF =>
    let t := trimChars line
    if t == "[features]".data then localFeaturesLoop rest true
    else if inF && t.head? == some '[' then localFeaturesLoop rest false
    else if inF then
      match featureDeclMatch t with
      | some (name, content) =>
        { name := name,
          enable := (splitOnComma content).filterMap (fun s =>
            let e := cleanEnableEntry s
            if e.isEmpty then none else some (String.mk e)) } ::
          localFeaturesLoop rest inF
      | none =>
        match simpleDeclMatch t with
        | some name => { name := name, enable := [] } :: localFeaturesLoop rest inF
        | none => localFeaturesLoop rest inF
    else localFeaturesLoop rest inF

/-- fetchLocalCrateFeatures on the text of the local manifest.  Note: no
`_`-filtering happens here (`[\w-]+` accepts leading underscores). -/
def fetchLocalCrateFeatures (content : String) : List FeatureInfo :=
  localFeaturesLoop (splitManifestLines content.data) false

/-! ## Remote Feature Source — fetchCrateFeatures (lines 164–216)

The network is abstracted as `net : String → Option (List CargoVersionInfo)`:
`none` stands for any failure the `try`/`catch` absorbs (timeout, non-ok
status, network error, malformed JSON), `some vs` for a response whose
`versions` array decoded to `vs` (newest first).  The module-level
`featuresCache` `Map` is threaded explicitly as an association list whose
`set` prepends (a later binding shadows an earlier one, as `Map.set`
overwrites), and the number of network requests the call performed is
returned so that caching claims can be stated. -/

/-- One record of the registry's `versions` array. -/
structure CargoVersionInfo where
  num : String
  features : List (String × List String)
deriving DecidableEq, Repr

/-- The process-wide features cache. -/
abbrev FeatureCache := List (String × List FeatureInfo)

/-- What one call to fetchCrateFeatures produced: its return value, the
cache as the call left it, and how many network requests it issued. -/
structure FetchOutcome where
  features : List FeatureInfo
  cache : FeatureCache
  netCalls : Nat
deriving DecidableEq, Repr

/-- JS truthiness of the optional `version` argument (`undefined` and the
empty string are falsy). -/
def versionTruthy : Option String → Bool
  | none => false
  | some s => !(s == "")

/-- `` version ? `${crateName}@${version}` : `${crateName}@latest` ``. -/
def cacheKey (crateName : String) (version : Option String) : String :=
  if versionTruthy version then crateName ++ "@" ++ version.getD ""
  else crateName ++ "@latest"

/-- `version.replace(/[\^~=]/g, "").trim()` — every occurrence of `^`, `~`,
`=` is removed (the regex carries the `g` flag), then the result is trimmed. -/
def stripVersionConstraint (v : String) : String :=
  String.mk (trimChars (v.data.filter (fun c => !(c == '^' || c == '~' || c == '='))))

/-- Version selection (lines 188–201): default to the first (newest)
version; with a truthy constraint, prefer an exact match on the stripped
constraint, then the first version whose number starts with it, then the
first version. `none` only when the versions list is empty. -/
def selectTargetVersion (versions : List CargoVersionInfo) (version : Option String) :
    Option CargoVersionInfo :=
  match versions with
  | [] => none
  | v0 :: _ =>
    if versionTruthy version then
      let bare := stripVersionConstraint (version.getD "")
      match versions.find? (fun v => v.num == bare) with
      | some m => some m
      | none =>
        match versions.find? (fun v => strStartsWith v.num bare) with
        | some pm => some pm
        | none => some v0
    else some v0

/-- Modelled from the spec words of the claim, for comparison with
`selectTargetVersion`: "leading `^`, `~`, `=` and surrounding whitespace are
stripped" — only a leading run of those operators is removed before
trimming, where the source removes every occurrence. -/
def stripVersionConstraintSpec (v : String) : String :=
  String.mk (trimChars (v.data.dropWhile (fun c => c == '^' || c == '~' || c == '=')))

/-- The claim's version-selection rule, identical to the source's except for
the leading-only stripping. -/
def selectTargetVersionSpec (versions : List CargoVersionInfo) (version : Option String) :
    Option CargoVersionInfo :=
  match versions with
  | [] => none
  | v0 :: _ =>
    if versionTruthy version then
      let bare := stripVersionConstraintSpec (version.getD "")
      match versions.find? (fun v => v.num == bare) with
      | some m => some m
      | none =>
        match versions.find? (fun v => strStartsWith v.num bare) with
        | some pm => some pm
        | none => some v0
    else some v0

/-- Lexicographic code-point comparison of names (`a ≤ b`). -/
def charListLe : List Char → List Char → Bool
  | [], _ => true
  | _ :: _, [] => false
  | a :: as, b :: bs => if a < b then true else if b < a then false else charListLe as bs

/-- `Object.entries(...).sort(([a], [b]) => a.localeCompare(b))`, modelled
as a stable insertion sort under code-point order on the names (the ES
specification makes `Array.prototype.sort` stable; `localeCompare` agrees
with code-point order on the ASCII feature names that occur here). -/
def insertSortedByName (e : String × List String) :
    List (String × List String) → List (String × List String)
  | [] => [e]
  | x :: xs =>
    if charListLe e.1.data x.1.data then e :: x :: xs else x :: insertSortedByName e xs

/-- The full entry sort. -/
def sortEntriesByName : List (String × List String) → List (String × List String)
  | [] => []
  | x :: xs => insertSortedByName x (sortEntriesByName xs)

/-- fetchCrateFeatures: cache hit short-circuits with no network access; a
miss issues exactly one request; any failure returns the empty list and
leaves the cache untouched; an empty versions array likewise returns early
without caching; otherwise the selected version's feature map is sorted by
name, entries whose name starts with `_` are dropped, and the result is
cached under the key before being returned. -/
def fetchCrateFeatures (net : String → Option (List CargoVersionInfo))
    (cache : FeatureCache) (crateName : String) (version : Option String) :
    FetchOutcome :=
  let key := cacheKey crateName version
  match cache.lookup key with
  | some cached => { features := cached, cache := cache, netCalls := 0 }
  | none =>
    match net crateName with
    | none => { features := [], cache := cache, netCalls := 1 }
    | some versions =>
      match selectTargetVersion versions version with
      | none => { features := [], cache := cache, netCalls := 1 }
      | some target =>
        let filtered :=
          ((sortEntriesByName target.features).filter
            (fun e => !(strStartsWith e.1 "_"))).map
            (fun e => { name := e.1, enable := e.2 : FeatureInfo })
        { features := filtered, cache := (key, filtered) :: cache, netCalls := 1 }

/-! ## Helper lemmas about the matcher combinators -/

theorem expectStr_some {pat l r : List Char} (h : expectStr pat l = some r) :
    l = pat ++ r := by
  unfold expectStr at h
  split at h
  · next hp =>
    injection h with h1
    obtain ⟨t, ht⟩ := List.isPrefixOf_iff_prefix.mp hp
    subst ht
    rw [List.drop_left] at h1
    rw [h1]
  · exact absurd h (by simp)

theorem expectStr_append (pat r : List Char) : expectStr pat (pat ++ r) = some r := by
  unfold expectStr
  have hp : pat.isPrefixOf (pat ++ r) = true :=
    List.isPrefixOf_iff_prefix.mpr (List.prefix_append pat r)
  rw [if_pos hp, List.drop_left]

theorem expectChar_some {c : Char} {l r : List Char} (h : expectChar c l = some r) :
    l = c :: r := by
  cases l with
  | nil => exact absurd h (by simp [expectChar])
  | cons x xs =>
    simp only [expectChar] at h
    split at h
    · next hx =>
      injection h with h1
      rw [eq_of_beq hx, h1]
    · exact absurd h (by simp)

theorem expectChar_cons (c : Char) (r : List Char) : expectChar c (c :: r) = some r := by
  simp [expectChar]

theorem skipWs_eq_append (l : List Char) :
    l = l.takeWhile isWsChar ++ skipWs l :=
  (List.takeWhile_append_dropWhile isWsChar l).symm

theorem skipWs_append {w : List Char} (hw : ∀ c ∈ w, isWsChar c = true)
    {y : Char} (hy : isWsChar y = false) (rest : List Char) :
    skipWs (w ++ y :: rest) = y :: rest := by
  induction w with
  | nil => simp [skipWs, List.dropWhile, hy]
  | cons a as ih =>
    have ha : isWsChar a = true := hw a (by simp)
    simp only [List.cons_append, skipWs, List.dropWhile, ha]
    exact ih (fun c hc => hw c (by simp [hc]))

theorem dropWhile_head_false {p : Char → Bool} {l r : List Char} {d : Char}
    (h : l.dropWhile p = d :: r) : p d = false := by
  induction l with
  | nil => exact absurd h (by simp)
  | cons c t ih =>
    simp only [List.dropWhile] at h
    split at h
    · exact ih h
    · next hc =>
      injection h with h1
      rw [← h1]
      exact hc

theorem lookup_mem {k : String} {l : FeatureCache} {v : List FeatureInfo}
    (h : l.lookup k = some v) : (k, v) ∈ l := by
  induction l with
  | nil => exact absurd h (by simp)
  | cons p rest ih =>
    unfold List.lookup at h
    split at h
    · next hk =>
      injection h with h1
      have hk1 : k = p.1 := eq_of_beq hk
      have hp : p = (k, v) := by
        rw [Prod.ext_iff]
        exact ⟨hk1.symm, h1⟩
      rw [hp]
      exact List.mem_cons_self _ _
    · exact List.mem_cons_of_mem _ (ih h)

set_option maxRecDepth 8192

/-! ## Claim C1 — `_`-prefixed features and the two feature sources -/

/-- C1 (counterexample): a completion request resolved through a local path
dependency surfaces a feature whose name begins with `_`.  The document
declares `mylib` with a path, the path's manifest declares `_internal`, and
the suggestion list for the cursor at the end of `features = ["` contains
`_internal`. -/
theorem claim_C1_counterexample :
    getCrateInfo id ["[dependencies.mylib]", "path = \"../mylib\"", "features = [\""] 2
      = some ⟨"mylib", some "../mylib", none⟩ ∧
    fetchLocalCrateFeatures "[features]\n_internal = []" = [⟨"_internal", []⟩] ∧
    provideCompletionNames "features = [\"" 13
      (fetchLocalCrateFeatures "[features]\n_internal = []") = some ["_internal"] ∧
    strStartsWith "_internal" "_" = true := by
  refine ⟨by decide, by decide, by decide, by decide⟩

/-- C1 (amended): features fetched from the remote registry never carry a
name beginning with `_` (provided every list already in the cache was itself
produced by such a fetch); the local path source performs no such filtering. -/
theorem claim_C1_remote_no_underscore :
    ∀ (net : String → Option (List CargoVersionInfo)) (cache : FeatureCache)
      (crateName : String) (version : Option String),
      (∀ p ∈ cache, ∀ f ∈ p.2, strStartsWith f.name "_" = false) →
      ∀ f ∈ (fetchCrateFeatures net cache crateName version).features,
        strStartsWith f.name "_" = false := by
  intro net cache crateName version hcache f hf
  cases hlk : cache.lookup (cacheKey crateName version) with
  | some cached =>
    simp only [fetchCrateFeatures, hlk] at hf
    exact hcache _ (lookup_mem hlk) f hf
  | none =>
    simp only [fetchCrateFeatures, hlk] at hf
    cases hnet : net crateName with
    | none => simp only [hnet] at hf; simp at hf
    | some versions =>
      simp only [hnet] at hf
      cases hsel : selectTargetVersion versions version with
      | none => simp only [hsel] at hf; simp at hf
      | some target =>
        simp only [hsel] at hf
        simp only [List.mem_map, List.mem_filter] at hf
        obtain ⟨e, ⟨_, hpred⟩, hfe⟩ := hf
        rw [← hfe]
        simpa using hpred

/-- Witness for C1 (amended) at a concrete fetch. -/
theorem claim_C1_remote_no_underscore_witness :
    (∀ p ∈ ([] : FeatureCache), ∀ f ∈ p.2, strStartsWith f.name "_" = false) ∧
    (⟨"std", ["alloc"]⟩ : FeatureInfo) ∈
      (fetchCrateFeatures (fun _ => some [⟨"1.0", [("std", ["alloc"])]⟩])
        [] "serde" none).features ∧
    strStartsWith "std" "_" = false :=
  ⟨by simp, by decide,
   claim_C1_remote_no_underscore (fun _ => some [⟨"1.0", [("std", ["alloc"])]⟩])
     [] "serde" none (by simp) ⟨"std", ["alloc"]⟩ (by decide)⟩

/-! ## Claim C3 — exclusion of already-listed features on an unterminated list -/

/-- C3 (counterexample): for the unterminated line `features = ["std", "al`
with available features std, alloc, full, the suggestions are NOT exactly
alloc and full. -/
theorem claim_C3_counterexample :
    provideCompletionNames "features = [\"std\", \"al" 22
      [⟨"std", []⟩, ⟨"alloc", []⟩, ⟨"full", []⟩] ≠ some ["alloc", "full"] := by
  decide

/-- C3 (amended): with no closing bracket on the line, getExistingFeatures
extracts nothing, so all three features — `std` included — are suggested. -/
theorem claim_C3_unterminated_no_exclusion :
    getExistingFeatures "features = [\"std\", \"al" = [] ∧
    provideCompletionNames "features = [\"std\", \"al" 22
      [⟨"std", []⟩, ⟨"alloc", []⟩, ⟨"full", []⟩] = some ["std", "alloc", "full"] := by
  refine ⟨by decide, by decide⟩

/-! ## Claim C2 — which occurrence of `path`/`version` the forward scan keeps -/

/-- The last element of `l`, or `fb` when `l` is empty: the value of an
accumulator that starts at `fb` and is overwritten by each element. -/
def lastOr (fb : Option α) (l : List α) : Option α :=
  match l.getLast? with
  | some x => some x
  | none => fb

theorem lastOr_cons (fb : Option α) (x : α) (l : List α) :
    lastOr fb (x :: l) = lastOr (some x) l := by
  cases l with
  | nil => simp [lastOr]
  | cons y ys =>
    simp only [lastOr, List.getLast?_cons_cons]
    cases hg : (y :: ys).getLast? with
    | some z => rfl
    | none => simp at hg

/-- C2 (counterexample): with two `path` lines and two `version` lines in
the window after `[dependencies.foo]`, the resolver returns the second
(`b`, `2`) of each, not the first (`a`, `1`). -/
theorem claim_C2_counterexample :
    getCrateInfo id ["[dependencies.foo]", "path = \"a\"", "path = \"b\"",
        "version = \"1\"", "version = \"2\"", "features = [\""] 5
      = some ⟨"foo", some "b", some "2"⟩ ∧
    some (⟨"foo", some "b", some "2"⟩ : CrateInfo) ≠
      some ⟨"foo", some "a", some "1"⟩ := by
  refine ⟨by decide, by decide⟩

/-- C2 (amended): over the scanned window (the lines up to the first
`[`-starting line), the forward scan returns the LAST `path` value and the
LAST `version` value encountered, falling back to the accumulators when a
key never matches. -/
theorem claim_C2_scan_last_wins :
    ∀ (resolve : String → String) (ls : List String) (p v : Option String),
      scanWindow resolve ls p v =
        (lastOr p ((ls.takeWhile (fun line => !(headIsBracket line))).filterMap
            (fun line => (keyValAt "path".data (trimChars line.data)).map resolve)),
         lastOr v ((ls.takeWhile (fun line => !(headIsBracket line))).filterMap
            (fun line => keyValAt "version".data (trimChars line.data)))) := by
  intro resolve ls
  induction ls with
  | nil => intro p v; simp [scanWindow, lastOr]
  | cons line rest ih =>
    intro p v
    by_cases hb : headIsBracket line
    · simp [scanWindow, hb, List.takeWhile_cons, lastOr]
    · have hb' : headIsBracket line = false := Bool.eq_false_iff.mpr hb
      simp only [scanWindow, hb', Bool.false_eq_true, if_false, List.takeWhile_cons,
        Bool.not_false, if_true, List.filterMap_cons]
      rw [ih]
      cases hp : keyValAt "path".data (trimChars line.data) with
      | none =>
        cases hv : keyValAt "version".data (trimChars line.data) with
        | none => simp
        | some val => simp [lastOr_cons]
      | some val =>
        cases hv : keyValAt "version".data (trimChars line.data) with
        | none => simp [lastOr_cons]
        | some val2 => simp [lastOr_cons]

/-! ## Claim C4 — size of the forward window and the header stop -/

/-- C4 (counterexample): a `version` key on the 15th line after the header —
"within 15 lines" — is NOT captured: the loop
`for (let j = i + 1; j < i + 15; ...)` visits only 14 lines. -/
theorem claim_C4_counterexample :
    getCrateInfo id (["[dependencies.bar]"] ++ List.replicate 14 "#" ++
        ["version = \"2.0\"", "features = [\""]) 16
      = some ⟨"bar", none, none⟩ ∧
    some (⟨"bar", none, none⟩ : CrateInfo) ≠ some ⟨"bar", none, some "2.0"⟩ := by
  refine ⟨by decide, by decide⟩

/-- C4 (amended): the forward window covers at most the 14 lines following
the header and stops at the first `[`-starting line: a key on the 14th line
is captured, a key on the 15th line is not, and keys after an intervening
header are not. -/
theorem claim_C4_window_extent :
    getCrateInfo id (["[dependencies.bar]"] ++ List.replicate 13 "#" ++
        ["version = \"2.0\"", "features = [\""]) 15
      = some ⟨"bar", none, some "2.0"⟩ ∧
    getCrateInfo id (["[dependencies.bar]"] ++ List.replicate 14 "#" ++
        ["version = \"2.0\"", "features = [\""]) 16
      = some ⟨"bar", none, none⟩ ∧
    getCrateInfo id ["[dependencies.bar]", "version = \"1.0\"", "features = [\"",
        "[profile]", "version = \"9.9\""] 2
      = some ⟨"bar", none, some "1.0"⟩ := by
  refine ⟨by decide, by decide, by decide⟩

/-! ## Claim C6 — remote version selection -/

/-- The newest-first version list of the spec's version-matching example. -/
def demoVersions : List CargoVersionInfo :=
  [⟨"2.0.1", []⟩, ⟨"1.5.0", []⟩, ⟨"1.2.3", []⟩]

/-- C6 (counterexample): the source strips every `^`/`~`/`=` occurrence
(`replace(/[\^~=]/g, "")`), not only leading ones.  For constraint `1.2=3`
against versions `2.0`, `1.23`, the source finds the exact match `1.23`
while the claim's leading-strip rule falls back to the newest `2.0`. -/
theorem claim_C6_counterexample :
    selectTargetVersion [⟨"2.0", []⟩, ⟨"1.23", []⟩] (some "1.2=3")
      = some ⟨"1.23", []⟩ ∧
    selectTargetVersionSpec [⟨"2.0", []⟩, ⟨"1.23", []⟩] (some "1.2=3")
      = some ⟨"2.0", []⟩ ∧
    some (⟨"1.23", []⟩ : CargoVersionInfo) ≠ some ⟨"2.0", []⟩ := by
  refine ⟨by decide, by decide, by decide⟩

/-- C6 (amended): with all `^`/`~`/`=` occurrences removed and the result
trimmed, selection prefers an exact match, then the first prefix match, then
the newest (first) version; no constraint takes the first version.  The
spec's four examples evaluate accordingly, and an exact match is always
honoured. -/
theorem claim_C6_version_selection :
    (selectTargetVersion demoVersions none = some ⟨"2.0.1", []⟩ ∧
     selectTargetVersion demoVersions (some "^1.2") = some ⟨"1.2.3", []⟩ ∧
     selectTargetVersion demoVersions (some "1.5.0") = some ⟨"1.5.0", []⟩ ∧
     selectTargetVersion demoVersions (some "9.9") = some ⟨"2.0.1", []⟩) ∧
    (∀ (v0 : CargoVersionInfo) (rest : List CargoVersionInfo),
      selectTargetVersion (v0 :: rest) none = some v0) ∧
    (∀ (v0 : CargoVersionInfo) (rest : List CargoVersionInfo) (c : String),
      (c == "") = false →
      (∃ m ∈ v0 :: rest, m.num = stripVersionConstraint c) →
      ∃ m, selectTargetVersion (v0 :: rest) (some c) = some m ∧
        m.num = stripVersionConstraint c) := by
  refine ⟨⟨by decide, by decide, by decide, by decide⟩, ?_, ?_⟩
  · intro v0 rest
    simp [selectTargetVersion, versionTruthy]
  · intro v0 rest c hc hex
    have htru : versionTruthy (some c) = true := by
      simp [versionTruthy, hc]
    have hsome : ((v0 :: rest).find?
        (fun v => v.num == stripVersionConstraint c)).isSome = true := by
      rw [List.find?_isSome]
      obtain ⟨m, hm, hnum⟩ := hex
      exact ⟨m, hm, by simp [hnum]⟩
    obtain ⟨r, hr⟩ := Option.isSome_iff_exists.mp hsome
    have hpr := @List.find?_some CargoVersionInfo
      (fun v => v.num == stripVersionConstraint c) r (v0 :: rest) hr
    refine ⟨r, ?_, eq_of_beq hpr⟩
    simp only [selectTargetVersion, htru, if_true, Option.getD_some, hr]

/-! ## Claim C7 — cache idempotence of the remote source -/

/-- C7 (confirmed): after a first resolution that reached the registry and
selected a version (nonempty versions array), a second call for the same
name and constraint is a cache hit: it performs no network access and
returns the identical list.  In total the two calls issue exactly one
network request. -/
theorem claim_C7_cache_idempotent :
    ∀ (net : String → Option (List CargoVersionInfo)) (cache : FeatureCache)
      (crateName : String) (version : Option String) (vs : List CargoVersionInfo),
      cache.lookup (cacheKey crateName version) = none →
      net crateName = some vs → vs ≠ [] →
      (fetchCrateFeatures net cache crateName version).netCalls = 1 ∧
      (fetchCrateFeatures net (fetchCrateFeatures net cache crateName version).cache
          crateName version).netCalls = 0 ∧
      (fetchCrateFeatures net (fetchCrateFeatures net cache crateName version).cache
          crateName version).features =
        (fetchCrateFeatures net cache crateName version).features := by
  intro net cache crateName version vs hlk hnet hvs
  cases vs with
  | nil => exact absurd rfl hvs
  | cons v0 vrest =>
    have hsel : ∃ t, selectTargetVersion (v0 :: vrest) version = some t := by
      simp only [selectTargetVersion]
      cases htru : versionTruthy version with
      | false => exact ⟨v0, rfl⟩
      | true =>
        cases hf1 : (v0 :: vrest).find?
            (fun v => v.num == stripVersionConstraint (version.getD "")) with
        | some m => exact ⟨m, rfl⟩
        | none =>
          cases hf2 : (v0 :: vrest).find?
              (fun v => strStartsWith v.num (stripVersionConstraint (version.getD ""))) with
          | some pm => exact ⟨pm, by simp [hf1, hf2]⟩
          | none => exact ⟨v0, by simp [hf1, hf2]⟩
    obtain ⟨t, ht⟩ := hsel
    have h1 : fetchCrateFeatures net cache crateName version =
        { features := ((sortEntriesByName t.features).filter
            (fun e => !(strStartsWith e.1 "_"))).map (fun e => ⟨e.1, e.2⟩),
          cache := (cacheKey crateName version,
            ((sortEntriesByName t.features).filter
              (fun e => !(strStartsWith e.1 "_"))).map (fun e => ⟨e.1, e.2⟩)) :: cache,
          netCalls := 1 } := by
      simp only [fetchCrateFeatures, hlk, hnet, ht]
    rw [h1]
    refine ⟨rfl, ?_, ?_⟩ <;>
      simp [fetchCrateFeatures, List.lookup]

/-- Witness for C7 at a concrete net and empty cache. -/
theorem claim_C7_cache_idempotent_witness :
    ([] : FeatureCache).lookup (cacheKey "serde" none) = none ∧
    (fun _ : String => some [(⟨"1.0", [("std", [])]⟩ : CargoVersionInfo)]) "serde"
      = some [⟨"1.0", [("std", [])]⟩] ∧
    ([(⟨"1.0", [("std", [])]⟩ : CargoVersionInfo)] ≠ []) ∧
    ((fetchCrateFeatures (fun _ => some [⟨"1.0", [("std", [])]⟩]) [] "serde" none).netCalls = 1 ∧
     (fetchCrateFeatures (fun _ => some [⟨"1.0", [("std", [])]⟩])
        (fetchCrateFeatures (fun _ => some [⟨"1.0", [("std", [])]⟩]) [] "serde" none).cache
        "serde" none).netCalls = 0 ∧
     (fetchCrateFeatures (fun _ => some [⟨"1.0", [("std", [])]⟩])
        (fetchCrateFeatures (fun _ => some [⟨"1.0", [("std", [])]⟩]) [] "serde" none).cache
        "serde" none).features =
       (fetchCrateFeatures (fun _ => some [⟨"1.0", [("std", [])]⟩]) [] "serde" none).features) :=
  ⟨rfl, rfl, by decide,
   claim_C7_cache_idempotent (fun _ => some [⟨"1.0", [("std", [])]⟩]) [] "serde" none
     [⟨"1.0", [("std", [])]⟩] rfl rfl (by decide)⟩

/-! ## Claim C8 — remote failures collapse to the empty list -/

/-- C8 (confirmed): on a cache miss, any request failure the `try`/`catch`
absorbs (`net` returns `none`: timeout, non-success status, network error,
malformed JSON) yields the empty feature list with no error propagated — the
model is a total function — and an empty versions array from the registry
likewise yields the empty list. -/
theorem claim_C8_failure_empty_list :
    ∀ (net : String → Option (List CargoVersionInfo)) (cache : FeatureCache)
      (crateName : String) (version : Option String),
      cache.lookup (cacheKey crateName version) = none →
      (net crateName = none →
        fetchCrateFeatures net cache crateName version
          = { features := [], cache := cache, netCalls := 1 }) ∧
      (net crateName = some [] →
        fetchCrateFeatures net cache crateName version
          = { features := [], cache := cache, netCalls := 1 }) := by
  intro net cache crateName version hlk
  constructor
  · intro hnet
    simp only [fetchCrateFeatures, hlk, hnet]
  · intro hnet
    simp only [fetchCrateFeatures, hlk, hnet, selectTargetVersion]

/-- Witness for C8 with a failing net and with an empty versions array. -/
theorem claim_C8_failure_empty_list_witness :
    ([] : FeatureCache).lookup (cacheKey "serde" (some "1.0")) = none ∧
    fetchCrateFeatures (fun _ => none) [] "serde" (some "1.0")
      = { features := [], cache := [], netCalls := 1 } ∧
    fetchCrateFeatures (fun _ => some []) [] "serde" (some "1.0")
      = { features := [], cache := [], netCalls := 1 } :=
  ⟨rfl,
   (claim_C8_failure_empty_list (fun _ => none) [] "serde" (some "1.0") rfl).1 rfl,
   (claim_C8_failure_empty_list (fun _ => some []) [] "serde" (some "1.0") rfl).2 rfl⟩

/-! ## Claim C10 — failures are not cached -/

/-- C10 (confirmed): when the fetch fails on a cache miss, the cache is
returned unchanged — no empty list is stored under the key — so a subsequent
call for the same name and constraint misses again and issues a fresh
network request (whatever that later request returns). -/
theorem claim_C10_failure_not_cached :
    ∀ (net net2 : String → Option (List CargoVersionInfo)) (cache : FeatureCache)
      (crateName : String) (version : Option String),
      cache.lookup (cacheKey crateName version) = none →
      net crateName = none →
      (fetchCrateFeatures net cache crateName version).cache = cache ∧
      (fetchCrateFeatures net2
          (fetchCrateFeatures net cache crateName version).cache
          crateName version).netCalls = 1 := by
  intro net net2 cache crateName version hlk hnet
  have h1 : fetchCrateFeatures net cache crateName version
      = { features := [], cache := cache, netCalls := 1 } := by
    simp only [fetchCrateFeatures, hlk, hnet]
  rw [h1]
  refine ⟨rfl, ?_⟩
  simp only [fetchCrateFeatures, hlk]
  cases hnet2 : net2 crateName with
  | none => rfl
  | some versions =>
    cases hsel : selectTargetVersion versions version with
    | none => simp [hsel]
    | some target => simp [hsel]

/-- Witness for C10 at a failing first fetch over the empty cache. -/
theorem claim_C10_failure_not_cached_witness :
    ([] : FeatureCache).lookup (cacheKey "tokio" none) = none ∧
    (fun _ : String => (none : Option (List CargoVersionInfo))) "tokio" = none ∧
    ((fetchCrateFeatures (fun _ => none) [] "tokio" none).cache = [] ∧
     (fetchCrateFeatures (fun _ => none)
        (fetchCrateFeatures (fun _ => none) [] "tokio" none).cache
        "tokio" none).netCalls = 1) :=
  ⟨rfl, rfl,
   claim_C10_failure_not_cached (fun _ => none) (fun _ => none) [] "tokio" none rfl rfl⟩

/-! ## Claim C5 — what the Trigger Gate accepts -/

theorem triggerTail_iff (l : List Char) :
    triggerTail l = true ↔
      ∃ v q w, l = v ++ q :: w ∧ isQuoteChar q = true ∧
        (∀ c ∈ v, (c == ']') = false) ∧ (∀ c ∈ w, isQuoteChar c = false) := by
  induction l with
  | nil =>
    simp only [triggerTail]
    constructor
    · intro h; exact absurd h (by simp)
    · rintro ⟨v, q, w, hl, -, -, -⟩
      exact absurd hl.symm (by simp)
  | cons c rest ih =>
    simp only [triggerTail, Bool.or_eq_true, Bool.and_eq_true]
    constructor
    · rintro (⟨hq, hany⟩ | ⟨hne, htail⟩)
      · refine ⟨[], c, rest, rfl, hq, by simp, ?_⟩
        intro x hx
        rw [Bool.not_eq_true'] at hany
        rw [List.any_eq_false] at hany
        exact Bool.eq_false_iff.mpr (hany x hx)
      · obtain ⟨v, q, w, hl, hq, hv, hw⟩ := ih.mp htail
        refine ⟨c :: v, q, w, by rw [hl]; rfl, hq, ?_, hw⟩
        intro x hx
        rcases List.mem_cons.mp hx with hx | hx
        · rw [hx]
          simpa using hne
        · exact hv x hx
    · rintro ⟨v, q, w, hl, hq, hv, hw⟩
      cases v with
      | nil =>
        left
        injection hl with h1 h2
        refine ⟨h1 ▸ hq, ?_⟩
        rw [Bool.not_eq_true', List.any_eq_false]
        intro x hx
        rw [h2] at hx
        exact Bool.eq_false_iff.mp (hw x hx)
      | cons a v2 =>
        right
        injection hl with h1 h2
        refine ⟨?_, ih.mpr ⟨v2, q, w, h2, hq, fun x hx => hv x (by simp [hx]), hw⟩⟩
        rw [Bool.not_eq_true', h1]
        exact hv a (by simp)

theorem matchTriggerAt_iff (l : List Char) :
    matchTriggerAt l = true ↔
      ∃ w1 w2 t, l = "features".data ++ w1 ++ '=' :: (w2 ++ '[' :: t) ∧
        (∀ c ∈ w1, isWsChar c = true) ∧ (∀ c ∈ w2, isWsChar c = true) ∧
        triggerTail t = true := by
  constructor
  · intro h
    unfold matchTriggerAt at h
    cases h1 : expectStr "features".data l with
    | none => simp [h1] at h
    | some r1 =>
      simp only [h1] at h
      cases h2 : expectChar '=' (skipWs r1) with
      | none => simp [h2] at h
      | some r2 =>
        simp only [h2] at h
        cases h3 : expectChar '[' (skipWs r2) with
        | none => simp [h3] at h
        | some r3 =>
          simp only [h3] at h
          refine ⟨r1.takeWhile isWsChar, r2.takeWhile isWsChar, r3, ?_, ?_, ?_, h⟩
          · have hr1 : r1 = r1.takeWhile isWsChar ++
                '=' :: (r2.takeWhile isWsChar ++ '[' :: r3) := by
              calc r1 = r1.takeWhile isWsChar ++ skipWs r1 := skipWs_eq_append r1
                _ = r1.takeWhile isWsChar ++ '=' :: r2 := by rw [expectChar_some h2]
                _ = r1.takeWhile isWsChar ++
                    '=' :: (r2.takeWhile isWsChar ++ skipWs r2) := by
                      rw [← skipWs_eq_append r2]
                _ = r1.takeWhile isWsChar ++
                    '=' :: (r2.takeWhile isWsChar ++ '[' :: r3) := by
                      rw [expectChar_some h3]
            rw [expectStr_some h1]
            conv_lhs => rw [hr1]
            rw [List.append_assoc]
          · intro x hx; exact List.mem_takeWhile_imp hx
          · intro x hx; exact List.mem_takeWhile_imp hx
  · rintro ⟨w1, w2, t, hl, hw1, hw2, htail⟩
    have hassoc : "features".data ++ w1 ++ '=' :: (w2 ++ '[' :: t)
        = "features".data ++ (w1 ++ '=' :: (w2 ++ '[' :: t)) := by
      rw [List.append_assoc]
    have e1 : expectStr "features".data ("features".data ++ (w1 ++ '=' :: (w2 ++ '[' :: t)))
        = some (w1 ++ '=' :: (w2 ++ '[' :: t)) := expectStr_append _ _
    have e2 : expectChar '=' (skipWs (w1 ++ '=' :: (w2 ++ '[' :: t)))
        = some (w2 ++ '[' :: t) := by
      rw [skipWs_append hw1 (by decide) _]
      exact expectChar_cons _ _
    have e3 : expectChar '[' (skipWs (w2 ++ '[' :: t)) = some t := by
      rw [skipWs_append hw2 (by decide) _]
      exact expectChar_cons _ _
    unfold matchTriggerAt
    rw [hl, hassoc]
    simp only [e1, e2, e3]
    exact htail

theorem triggerActive_iff_suffix (p : List Char) :
    triggerActive p = true ↔ ∃ u s, p = u ++ s ∧ matchTriggerAt s = true := by
  induction p with
  | nil =>
    simp only [triggerActive]
    constructor
    · intro h; exact absurd h (by simp)
    · rintro ⟨u, s, hp, hm⟩
      obtain ⟨hu, hs⟩ := List.append_eq_nil.mp hp.symm
      rw [hs] at hm
      exact absurd hm (by decide)
  | cons c rest ih =>
    simp only [triggerActive, Bool.or_eq_true]
    constructor
    · rintro (h | h)
      · exact ⟨[], c :: rest, rfl, h⟩
      · obtain ⟨u, s, hp, hm⟩ := ih.mp h
        exact ⟨c :: u, s, by rw [hp]; rfl, hm⟩
    · rintro ⟨u, s, hp, hm⟩
      cases u with
      | nil =>
        left
        simp only [List.nil_append] at hp
        rw [hp]
        exact hm
      | cons a u2 =>
        right
        injection hp with h1 h2
        exact ih.mpr ⟨u2, s, h2, hm⟩

/-- The shape of a line prefix the Trigger Gate accepts: somewhere in the
prefix `features`, optional whitespace, `=`, optional whitespace, `[`, then
a run without `]`, a quote character, and a final (possibly empty) run
without quote characters reaching the cursor. -/
def TriggerShape (p : List Char) : Prop :=
  ∃ u w1 w2 v q w,
    p = u ++ "features".data ++ w1 ++ '=' :: (w2 ++ '[' :: (v ++ q :: w)) ∧
    (∀ c ∈ w1, isWsChar c = true) ∧ (∀ c ∈ w2, isWsChar c = true) ∧
    isQuoteChar q = true ∧ (∀ c ∈ v, (c == ']') = false) ∧
    (∀ c ∈ w, isQuoteChar c = false)

/-- C5 (counterexample): the gate is active on the prefix
`features = ["std"]` although the list literal is already closed before the
cursor (the prefix contains the closing `]`), and on `features = ["al`
although the cursor does not sit immediately after the opening quote. -/
theorem claim_C5_counterexample :
    triggerActive "features = [\"std\"]".data = true ∧
    "features = [\"std\"]".data.contains ']' = true ∧
    triggerActive "features = [\"al".data = true := by
  refine ⟨by decide, by decide, by decide⟩

/-- C5 (amended): the Trigger Gate is active exactly on the prefixes of
shape `... features = [ <no ]> <quote> <no quotes> ` — the run after the
quote may be a nonempty partial entry and may even contain `]`, so a list
closed after its last quote still activates the gate. -/
theorem claim_C5_trigger_characterization :
    ∀ p : List Char, triggerActive p = true ↔ TriggerShape p := by
  intro p
  rw [triggerActive_iff_suffix]
  constructor
  · rintro ⟨u, s, hp, hm⟩
    obtain ⟨w1, w2, t, hs, hw1, hw2, htail⟩ := (matchTriggerAt_iff s).mp hm
    obtain ⟨v, q, w, ht, hq, hv, hw⟩ := (triggerTail_iff t).mp htail
    refine ⟨u, w1, w2, v, q, w, ?_, hw1, hw2, hq, hv, hw⟩
    rw [hp, hs, ht]
    simp [List.append_assoc]
  · rintro ⟨u, w1, w2, v, q, w, hp, hw1, hw2, hq, hv, hw⟩
    refine ⟨u, "features".data ++ w1 ++ '=' :: (w2 ++ '[' :: (v ++ q :: w)), ?_, ?_⟩
    · rw [hp]; simp [List.append_assoc]
    · exact (matchTriggerAt_iff _).mpr
        ⟨w1, w2, v ++ q :: w, rfl,
         hw1, hw2, (triggerTail_iff _).mpr ⟨v, q, w, rfl, hq, hv, hw⟩⟩

/-! ## Claim C9 — what the Existing-Features Extractor returns -/

/-- `x` is the unquoted content of a quoted substring of `c`: some position
of `c` holds a quote character, `x`'s characters follow it quote-free and
nonempty, and a quote character closes them. -/
def QuotedSub (c : List Char) (x : String) : Prop :=
  ∃ pre q1 q2 post, c = pre ++ q1 :: (x.data ++ q2 :: post) ∧
    isQuoteChar q1 = true ∧ isQuoteChar q2 = true ∧ x.data ≠ [] ∧
    ∀ ch ∈ x.data, isQuoteChar ch = false

theorem QuotedSub_shift {r : List Char} {x : String} (a : List Char)
    (h : QuotedSub r x) : QuotedSub (a ++ r) x := by
  obtain ⟨pre, q1, q2, post, hc, h1, h2, h3, h4⟩ := h
  exact ⟨a ++ pre, q1, q2, post, by rw [hc, List.append_assoc], h1, h2, h3, h4⟩

theorem QuotedSub_congr {l l2 : List Char} {x : String} (he : l = l2)
    (h : QuotedSub l x) : QuotedSub l2 x := he ▸ h

/-- The invariant each scanner state guarantees about its emissions. -/
def ScanStateOk : Option (List Char) → List Char → String → Prop
  | none, l, x => QuotedSub l x
  | some acc, l, x =>
    ∀ q, isQuoteChar q = true → (∀ ch ∈ acc, isQuoteChar ch = false) →
      QuotedSub (q :: (acc ++ l)) x

theorem quotedRunsGo_sound (l : List Char) :
    ∀ (st : Option (List Char)) (x : String),
      x ∈ quotedRunsGo l st → ScanStateOk st l x := by
  induction l with
  | nil =>
    intro st x hx
    cases st <;> simp [quotedRunsGo] at hx
  | cons c rest ih =>
    intro st x hx
    cases st with
    | none =>
      simp only [quotedRunsGo] at hx
      by_cases hq : isQuoteChar c
      · rw [if_pos hq] at hx
        have h2 := ih (some []) x hx c hq (by simp)
        simpa [ScanStateOk] using h2
      · rw [if_neg hq] at hx
        exact QuotedSub_shift [c] (ih none x hx)
    | some acc =>
      simp only [quotedRunsGo] at hx
      by_cases hq : isQuoteChar c
      · rw [if_pos hq] at hx
        by_cases hacc : acc.isEmpty
        · rw [if_pos hacc] at hx
          intro q hq2 haccchars
          have hemp : acc = [] := List.isEmpty_iff.mp hacc
          have h2 := ih (some []) x hx c hq (by simp)
          simp only [ScanStateOk, List.nil_append] at h2
          refine QuotedSub_congr ?_ (QuotedSub_shift [q] h2)
          rw [hemp]
          rfl
        · rw [if_neg hacc] at hx
          intro q hq2 haccchars
          rcases List.mem_cons.mp hx with hx | hx
          · refine ⟨[], q, c, rest, ?_, hq2, hq, ?_, ?_⟩
            · rw [hx]; rfl
            · rw [hx]
              exact List.isEmpty_eq_false.mp (Bool.eq_false_iff.mpr hacc)
            · rw [hx]
              exact haccchars
          · have h2 := ih none x hx
            refine QuotedSub_congr ?_ (QuotedSub_shift (q :: (acc ++ [c])) h2)
            simp
      · rw [if_neg hq] at hx
        intro q hq2 haccchars
        have hch : ∀ ch ∈ acc ++ [c], isQuoteChar ch = false := by
          intro ch hc2
          rcases List.mem_append.mp hc2 with hc2 | hc2
          · exact haccchars ch hc2
          · rw [List.mem_singleton.mp hc2]
            exact Bool.eq_false_iff.mpr hq
        have h2 := ih (some (acc ++ [c])) x hx q hq2 hch
        refine QuotedSub_congr ?_ h2
        simp

/-- Any feature the extractor returns is the unquoted content of a quoted
substring of the bracket capture. -/
theorem getExistingFeatures_sound (lineText : String) (x : String)
    (hx : x ∈ getExistingFeatures lineText) :
    ∃ c, featuresBracketContent lineText.data = some c ∧ QuotedSub c x := by
  unfold getExistingFeatures at hx
  cases hb : featuresBracketContent lineText.data with
  | none => rw [hb] at hx; simp at hx
  | some content =>
    rw [hb] at hx
    exact ⟨content, rfl, quotedRunsGo_sound content none x hx⟩

theorem bracketContentAt_none {s : List Char} (h : ']' ∉ s) :
    bracketContentAt s = none := by
  unfold bracketContentAt
  cases h1 : expectStr "features".data s with
  | none => simp only [h1]
  | some r1 =>
    have hs1 : r1 <:+ s := by
      unfold expectStr at h1
      split at h1
      · injection h1 with h2
        rw [← h2]
        exact List.drop_suffix _ _
      · exact absurd h1 (by simp)
    simp only [h1]
    cases h2 : expectChar '=' (skipWs r1) with
    | none => simp only [h2]
    | some r2 =>
      have hs2 : r2 <:+ s := by
        have ha : skipWs r1 <:+ r1 := List.dropWhile_suffix _
        have hb : r2 <:+ skipWs r1 := by
          rw [expectChar_some h2]
          exact List.suffix_cons _ _
        exact (hb.trans ha).trans hs1
      simp only [h2]
      cases h3 : expectChar '[' (skipWs r2) with
      | none => simp only [h3]
      | some r3 =>
        have hs3 : r3 <:+ s := by
          have ha : skipWs r2 <:+ r2 := List.dropWhile_suffix _
          have hb : r3 <:+ skipWs r2 := by
            rw [expectChar_some h3]
            exact List.suffix_cons _ _
          exact (hb.trans ha).trans hs2
        have hdrop : r3.dropWhile (fun c => !(c == ']')) = [] := by
          rw [List.dropWhile_eq_nil_iff]
          intro ch hch
          have : ch ≠ ']' := by
            intro he
            exact h (hs3.subset (he ▸ hch))
          simp [this]
        simp only [h3, hdrop]

theorem featuresBracketContent_none {l : List Char} (h : ']' ∉ l) :
    featuresBracketContent l = none := by
  unfold featuresBracketContent
  induction l with
  | nil => simp [firstMatch, bracketContentAt_none h]
  | cons c rest ih =>
    simp only [firstMatch, bracketContentAt_none h]
    exact ih (fun hm => h (List.mem_cons_of_mem _ hm))

/-- C9 (counterexample): in the line `features = ["", "x"]` the entry `x` is
plainly the unquoted content of the quoted substring `"x"` of the bracket
capture, yet the extractor does not return it — the scan pairs the second
and third quotes and returns `, ` instead. -/
theorem claim_C9_counterexample :
    featuresBracketContent "features = [\"\", \"x\"]".data
      = some "\"\", \"x\"".data ∧
    QuotedSub "\"\", \"x\"".data "x" ∧
    "x" ∉ getExistingFeatures "features = [\"\", \"x\"]" ∧
    getExistingFeatures "features = [\"\", \"x\"]" = [", "] := by
  refine ⟨by decide, ⟨"\"\", ".data, dquoteChar, dquoteChar, [],
    by decide, by decide, by decide, by decide, by decide⟩, by decide, by decide⟩

/-- C9 (amended): every string the extractor returns is the unquoted content
of some quoted substring inside the first `features = [ ... ]` capture of
the line (the left-to-right scan may omit quoted substrings overlapping an
earlier pairing, so the converse fails), and a line without a closing
bracket yields the empty set. -/
theorem claim_C9_extractor_sound :
    (∀ (lineText x : String), x ∈ getExistingFeatures lineText →
      ∃ c, featuresBracketContent lineText.data = some c ∧ QuotedSub c x) ∧
    (∀ lineText : String, ']' ∉ lineText.data → getExistingFeatures lineText = []) := by
  constructor
  · exact getExistingFeatures_sound
  · intro lineText h
    unfold getExistingFeatures
    rw [featuresBracketContent_none h]
